import Mathlib

/-!
Verification of the AutoCaptions caption pipeline.

The repository's checked-in glue layer is `main.py`; it drives a two-stage
core (segmentation of raw transcript segments into bounded cues, then
timeline synthesis of a Premiere-style sequence document) that `main.py`
reaches through the `transcribe` and `premiere_convert` modules.  The glue
layer is embedded here from its source; the core stages are modelled from
the specification.  Strings are embedded as `List Char`, wall-clock seconds
as `ℚ`, timeline frames as `ℤ`.
-/

-- Batteries marks the `Rat` field operations `irreducible`, which blocks
-- kernel evaluation of decidable instances over concrete rationals; the
-- definitions below are executable, so restore ordinary reducibility.
set_option allowUnsafeReducibility true
attribute [semireducible] Rat.mul Rat.sub Rat.inv Rat.add

/-! ### Generic splitting and joining of lists at a separator -/

/-- Split a list at every occurrence of `sep`, keeping empty chunks, as
Python `str.split(sep)` does: `splitSep` of `"a  b"` at a space is
`["a", "", "b"]`. -/
def splitSep {α : Type} [DecidableEq α] (sep : α) : List α → List (List α)
  | [] => [[]]
  | a :: as =>
    if a = sep then [] :: splitSep sep as
    else
      match splitSep sep as with
      | [] => [[a]]
      | b :: bs => (a :: b) :: bs

/-- Join chunks back, placing one `sep` between consecutive chunks. -/
def joinSep {α : Type} (sep : α) : List (List α) → List α
  | [] => []
  | [b] => b
  | b :: b2 :: bs => b ++ sep :: joinSep sep (b2 :: bs)

/-! ### Decimal digits -/

/-- The character for a single decimal digit value. -/
def digitChar (d : ℕ) : Char := Char.ofNat (48 + d)

/-- The decimal value of a digit character. -/
def digitVal (c : Char) : ℕ := c.toNat - 48

/-- Decimal rendering of a natural number, most significant digit first,
by fuelled division (`fuel ≥ n` always suffices); the empty list for `0`,
which never occurs in a rendered cue index. -/
def natToCharsGo : ℕ → ℕ → List Char
  | 0, _ => []
  | fuel + 1, n =>
    if n = 0 then [] else natToCharsGo fuel (n / 10) ++ [digitChar (n % 10)]

def natToChars (n : ℕ) : List Char := natToCharsGo n n

/-- Parse an all-digit, non-empty run of characters as a natural number. -/
def readNat (l : List Char) : Option ℕ :=
  if l ≠ [] ∧ l.all (fun c => c.isDigit) then
    some (l.foldl (fun a c => a * 10 + digitVal c) 0)
  else none

/-- Fixed-width, zero-padded decimal rendering (width `k`, value `n % 10 ^ k`). -/
def padDigits : ℕ → ℕ → List Char
  | 0, _ => []
  | k + 1, n => padDigits k (n / 10) ++ [digitChar (n % 10)]

/-! ### Timecode

Modelled from the spec (§4.1): conversion between wall-clock seconds and
frames uses rounding, and the subtitle timestamp is `HH:MM:SS,mmm` with
millisecond precision, wrapping at the 60 s / 60 m / 24 h boundaries. -/

/-- Modelled from the spec: `to_frame(seconds, frame_rate)` rounds rather
than truncates. -/
def to_frame (seconds frame_rate : ℚ) : ℤ := round (seconds * frame_rate)

/-- Render a millisecond count as `HH:MM:SS,mmm`, wrapping at 24 h. -/
def timestampOfMs (ms : ℕ) : List Char :=
  padDigits 2 (ms / 3600000 % 24) ++
    ':' :: (padDigits 2 (ms / 60000 % 60) ++
      ':' :: (padDigits 2 (ms / 1000 % 60) ++
        ',' :: padDigits 3 (ms % 1000)))

/-- Modelled from the spec: `to_timestamp(seconds)` with millisecond
precision (negative input, which §4.1 rejects with a domain error, is
clamped; no claim exercises it). -/
def to_timestamp (seconds : ℚ) : List Char := timestampOfMs (round (seconds * 1000)).toNat

/-- Parse exactly twelve characters `HH:MM:SS,mmm` into seconds. -/
def readTimestamp : List Char → Option ℚ
  | [h1, h2, c1, m1, m2, c2, s1, s2, c3, x1, x2, x3] =>
    if h1.isDigit ∧ h2.isDigit ∧ m1.isDigit ∧ m2.isDigit ∧ s1.isDigit ∧ s2.isDigit ∧
        x1.isDigit ∧ x2.isDigit ∧ x3.isDigit ∧ c1 = ':' ∧ c2 = ':' ∧ c3 = ',' then
      some ((((digitVal h1 * 10 + digitVal h2) * 3600000 +
        (digitVal m1 * 10 + digitVal m2) * 60000 +
        (digitVal s1 * 10 + digitVal s2) * 1000 +
        (digitVal x1 * 100 + digitVal x2 * 10 + digitVal x3) : ℕ) : ℚ) / 1000)
    else none
  | _ => none

/-! ### Data model (§3) -/

/-- A raw transcript segment from the external transcription collaborator
(§3): `start`/`stop` in seconds, non-empty text.  `end` is a Lean keyword,
so the field is named `stop`. -/
structure RawSegment where
  start : ℚ
  stop : ℚ
  text : List Char
deriving DecidableEq

/-- A bounded subtitle cue (§3): 1-based contiguous `index`, `start < stop`,
text within the configured maximum length. -/
structure Cue where
  index : ℕ
  start : ℚ
  stop : ℚ
  text : List Char
deriving DecidableEq

/-- A cue before index assignment, used inside the Segmenter. -/
structure PreCue where
  start : ℚ
  stop : ℚ
  text : List Char
deriving DecidableEq

/-! ### Segmenter

Modelled from the spec (§4.2): greedy accumulation of consecutive raw
segments into one cue, closed at a silence gap above the threshold or when
the combined text (joined with a single space) would exceed the maximum
length; a single over-length segment is split further at whitespace, never
mid-word, its time interval apportioned to the fragments in proportion to
their character share (share = fragment length + 1, counting the consumed
separator, which keeps every share positive).  The spec's zero-duration
minimum-display edge case (§4.2) is not exercised by any claim and is not
modelled. -/

def ofSeg (s : RawSegment) : PreCue := ⟨s.start, s.stop, s.text⟩

def mergeCue (c : PreCue) (s : RawSegment) : PreCue :=
  ⟨c.start, s.stop, c.text ++ ' ' :: s.text⟩

def accumGo (gap : ℚ) (maxLen : ℕ) (cur : PreCue) : List RawSegment → List PreCue
  | [] => [cur]
  | s :: rest =>
    if s.start - cur.stop > gap ∨ maxLen < cur.text.length + 1 + s.text.length then
      cur :: accumGo gap maxLen (ofSeg s) rest
    else accumGo gap maxLen (mergeCue cur s) rest

def accum (gap : ℚ) (maxLen : ℕ) : List RawSegment → List PreCue
  | [] => []
  | s :: rest => accumGo gap maxLen (ofSeg s) rest

/-- Greedy packing of whole words into lines of joined length at most
`maxLen`; a word that cannot fit goes alone on its own line, whole. -/
def packGo (maxLen : ℕ) (cur : List (List Char)) (curLen : ℕ) :
    List (List Char) → List (List (List Char))
  | [] => [cur.reverse]
  | w :: rest =>
    if curLen + 1 + w.length ≤ maxLen then
      packGo maxLen (w :: cur) (curLen + 1 + w.length) rest
    else cur.reverse :: packGo maxLen [w] w.length rest

def packWords (maxLen : ℕ) : List (List Char) → List (List (List Char))
  | [] => []
  | w :: rest => packGo maxLen [w] w.length rest

/-- The text fragments of a length-based split: words grouped greedily,
each group re-joined with single spaces. -/
def fragsOf (maxLen : ℕ) (text : List Char) : List (List Char) :=
  (packWords maxLen (splitSep ' ' text)).map (joinSep ' ')

/-- A fragment's character share, counting the consumed separator. -/
def shareOf (f : List Char) : ℕ := f.length + 1

/-- Apportion the parent interval `[start, start + dur]` to the fragments
in proportion to their shares; `acc` is the share consumed so far. -/
def apportionGo (start dur total : ℚ) (acc : ℚ) : List (List Char) → List PreCue
  | [] => []
  | f :: fs =>
    ⟨start + dur * acc / total, start + dur * (acc + (shareOf f : ℚ)) / total, f⟩ ::
      apportionGo start dur total (acc + (shareOf f : ℚ)) fs

/-- Length-based splitting of one accumulated cue (§4.2). -/
def splitLong (maxLen : ℕ) (c : PreCue) : List PreCue :=
  if c.text.length ≤ maxLen then [c]
  else
    apportionGo c.start (c.stop - c.start)
      (((fragsOf maxLen c.text).map shareOf).sum : ℕ) 0 (fragsOf maxLen c.text)

/-- The segmentation pipeline before index assignment. -/
def preCues (gap : ℚ) (maxLen : ℕ) (segs : List RawSegment) : List PreCue :=
  ((accum gap maxLen segs).map (splitLong maxLen)).flatten

/-- Contiguous 1-based index assignment in emission order (§4.2). -/
def indexCues (i : ℕ) : List PreCue → List Cue
  | [] => []
  | p :: ps => ⟨i, p.start, p.stop, p.text⟩ :: indexCues (i + 1) ps

/-- Modelled from the spec: the Segmenter (§4.2), from raw transcript
segments to bounded cues (named `segmentCues` because Mathlib already
claims `segment`). -/
def segmentCues (gap : ℚ) (maxLen : ℕ) (segs : List RawSegment) : List Cue :=
  indexCues 1 (preCues gap maxLen segs)

/-! ### Cue Formatter (§4.3)

Modelled from the spec: numbered blocks — index line, `start --> end`
timestamp line, text line(s), blank separator line. -/

def arrowSep : List Char := " --> ".toList

/-- The non-blank lines of one formatted block: index line, timestamp
line, text line(s). -/
def cueBlockLines (c : Cue) : List (List Char) :=
  natToChars c.index ::
    (to_timestamp c.start ++ arrowSep ++ to_timestamp c.stop) ::
      splitSep '\n' c.text

def formatCueLines (c : Cue) : List (List Char) :=
  cueBlockLines c ++ [[]]

/-- Modelled from the spec: the Cue Formatter, serializing a cue sequence
to the subtitle exchange text. -/
def formatCues (cues : List Cue) : List Char :=
  joinSep '\n' ((cues.map formatCueLines).flatten)

/-! ### Cue Parser (§4.4)

Modelled from the spec: tolerates CRLF line endings and leading, trailing
or repeated blank separator lines; joins multi-line cue text with a single
newline; fails with a `MalformedCueError` reporting the offending block's
1-based position on a missing arrow separator, an unparsable timestamp,
a non-positive duration (`end <= start`) or non-increasing block indices. -/

inductive CueErrKind where
  | missingArrow
  | badTimestamp
  | nonPositiveDuration
  | nonIncreasingIndex
  | badIndexLine
  | missingLines
deriving DecidableEq

structure MalformedCueError where
  blockIndex : ℕ
  kind : CueErrKind
deriving DecidableEq

/-- Drop one trailing carriage return, as CRLF tolerance requires. -/
def stripCR (l : List Char) : List Char :=
  if l.getLast? = some '\r' then l.dropLast else l

def parseBlock (pos prevIdx : ℕ) : List (List Char) → Except MalformedCueError Cue
  | idxLine :: tsLine :: textLines =>
    match readNat idxLine with
    | none => .error ⟨pos, .badIndexLine⟩
    | some idx =>
      if idx ≤ prevIdx then .error ⟨pos, .nonIncreasingIndex⟩
      else if (tsLine.drop 12).take 5 ≠ arrowSep then .error ⟨pos, .missingArrow⟩
      else
        match readTimestamp (tsLine.take 12), readTimestamp (tsLine.drop 17) with
        | some s, some e =>
          if e ≤ s then .error ⟨pos, .nonPositiveDuration⟩
          else if textLines = [] then .error ⟨pos, .missingLines⟩
          else .ok ⟨idx, s, e, joinSep '\n' textLines⟩
        | _, _ => .error ⟨pos, .badTimestamp⟩
  | _ => .error ⟨pos, .missingLines⟩

def parseBlocks (pos prevIdx : ℕ) : List (List (List Char)) → Except MalformedCueError (List Cue)
  | [] => .ok []
  | b :: bs =>
    match parseBlock pos prevIdx b with
    | .error e => .error e
    | .ok c =>
      match parseBlocks (pos + 1) c.index bs with
      | .error e => .error e
      | .ok cs => .ok (c :: cs)

/-- Modelled from the spec: the Cue Parser, a pure function from subtitle
text to a cue sequence or a `MalformedCueError`. -/
def parseCues (docText : List Char) : Except MalformedCueError (List Cue) :=
  parseBlocks 1 0
    ((splitSep ([] : List Char) ((splitSep '\n' docText).map stripCR)).filter
      (fun b => !b.isEmpty))

/-! ### Timeline Synthesizer (§4.5)

Modelled from the spec: validates the frame rate and the start-time order,
then builds a sequence document with placeholder video and audio tracks
and one caption track mapping cues 1:1 to clip items; a later clip whose
rounded start frame would overlap its predecessor is pushed to start at
the predecessor's end frame, and a clip whose rounded interval would
collapse keeps a minimum length of one frame, so clip items always satisfy
`start_frame < end_frame`. -/

inductive SchemaValidationError where
  | nonPositiveFrameRate
  | unsortedCues
deriving DecidableEq

structure ClipItem where
  name : List Char
  source_text : List Char
  start_frame : ℤ
  end_frame : ℤ
deriving DecidableEq

structure Track where
  clipItems : List ClipItem
deriving DecidableEq

structure SequenceDocument where
  frame_rate : ℚ
  duration_frames : ℤ
  tracks : List Track
deriving DecidableEq

def sortedByStart : List Cue → Bool
  | [] => true
  | [_] => true
  | a :: b :: rest => decide (a.start ≤ b.start) && sortedByStart (b :: rest)

/-- A stable clip name derived from the cue index (§4.5). -/
def clipName (idx : ℕ) : List Char := "Caption ".toList ++ natToChars idx

def buildClips (fr : ℚ) (prevEnd : ℤ) : List Cue → List ClipItem
  | [] => []
  | c :: cs =>
    ⟨clipName c.index, c.text, max (to_frame c.start fr) prevEnd,
        max (to_frame c.stop fr) (max (to_frame c.start fr) prevEnd + 1)⟩ ::
      buildClips fr (max (to_frame c.stop fr) (max (to_frame c.start fr) prevEnd + 1)) cs

def maxStop : List Cue → ℚ
  | [] => 0
  | c :: cs => max c.stop (maxStop cs)

/-- Modelled from the spec: the Timeline Synthesizer. -/
def synthesize (fr : ℚ) (cues : List Cue) : Except SchemaValidationError SequenceDocument :=
  if fr ≤ 0 then .error .nonPositiveFrameRate
  else if !sortedByStart cues then .error .unsortedCues
  else .ok ⟨fr, ⌈maxStop cues * fr⌉, [⟨[]⟩, ⟨[]⟩, ⟨buildClips fr 0 cues⟩]⟩

/-! ### The glue layer, embedded from `src/main.py` -/

inductive PipelineError where
  | parseFailure (e : MalformedCueError)
  | synthFailure (e : SchemaValidationError)
deriving DecidableEq

/-- Modelled from the spec: `premiere_convert.srt_to_xml`.  The module is
not in `src/`; per §4.5 the synthesizer needs a target frame rate, and the
caller (`main.py` line 60) passes only the SRT content, so the frame rate
is a module-internal default here. -/
def premiereDefaultFrameRate : ℚ := 30

def premiere_convert_srt_to_xml (srt : List Char) : Except PipelineError SequenceDocument :=
  match parseCues srt with
  | .error e => .error (.parseFailure e)
  | .ok cues =>
    match synthesize premiereDefaultFrameRate cues with
    | .error e => .error (.synthFailure e)
    | .ok doc => .ok doc

/-- The observable outcome of `srt_to_xml` in `main.py`: either exactly one
file write of the fully built document, or a propagated error with no file
opened (the Python code builds `premiere_xml` before `open(outfile, "w")`,
lines 60–64). -/
inductive GlueOutcome where
  | wrote (path : List Char) (doc : SequenceDocument)
  | failed (e : PipelineError)
deriving DecidableEq

def xmlSuffix : List Char := ".xml".toList

/-- The `.xml` suffix fixup of `main.py` lines 61–62. -/
def fixXmlName (outfile : List Char) : List Char :=
  if xmlSuffix.isSuffixOf outfile then outfile else outfile ++ xmlSuffix

/-- `srt_to_xml` of `main.py` lines 57–66, over the SRT content instead of
the SRT file name (file reading is outside the model). -/
def srt_to_xml (srtContent outfile : List Char) : GlueOutcome :=
  match premiere_convert_srt_to_xml srtContent with
  | .error e => .failed e
  | .ok doc => .wrote (fixXmlName outfile) doc

/-- Modelled from the spec: `transcribe.transcribe_to_srt` (not in `src/`),
restricted to the captioning core — the external speech model supplies the
raw segments, the Segmenter and Cue Formatter produce the SRT text.  The
model name only selects the external recognition model. -/
def transcribe_to_srt (segs : List RawSegment) (_model_name : List Char)
    (split_gap : ℚ) (split_length : ℕ) : List Char :=
  formatCues (segmentCues split_gap split_length segs)

/-- The parsed command-line arguments of `main.py` lines 69–81: `--input`,
`--output`, `--model`, `--split_gap`, `--split_length`.  No frame-rate
argument exists. -/
structure CliArgs where
  input : Option (List Char)
  output : Option (List Char)
  model : List Char
  split_gap : ℚ
  split_length : ℕ
deriving DecidableEq

/-- Helper for `defaultOutputPath`: drop the last dot-extension. -/
def pathStemDot (parts : List (List Char)) : List Char :=
  match parts with
  | [] => []
  | [b] => b
  | _ => joinSep '.' parts.dropLast

/-- `Path(input).stem`-style default output of `main.py` lines 97–101,
approximated to the final path component with its last extension replaced
by `.xml`. -/
def defaultOutputPath (input : List Char) : List Char :=
  (joinSep '/' ((splitSep '/' input).dropLast)) ++
    (pathStemDot (splitSep '.' ((splitSep '/' input).getLastD [])) ++ xmlSuffix)

def resolveOutput (input : List Char) : Option (List Char) → List Char
  | some o => o
  | none => defaultOutputPath input

/-- The observable outcome of `main` (lines 83–119). -/
inductive MainOutcome where
  | interactivePrompt
  | parserError
  | ran (g : GlueOutcome)
deriving DecidableEq

/-- The mode choice of `main.py` line 84: `len(sys.argv) == 1` (the program
name only, no user arguments) enters interactive prompting; otherwise the
arguments are parsed. -/
inductive MainEntry where
  | interactive
  | noninteractive
deriving DecidableEq

def mainEntryMode (argv : List (List Char)) : MainEntry :=
  if argv.length = 1 then .interactive else .noninteractive

/-- The non-interactive path of `main.py` lines 90–118: `parser.error`
(which terminates) when `--input` is missing or empty (`if not args.input`),
otherwise transcription and conversion with the parsed configuration. -/
def main_noninteractive (args : CliArgs) (segs : List RawSegment) : MainOutcome :=
  match args.input with
  | none => .parserError
  | some inp =>
    if inp = [] then .parserError
    else
      .ran (srt_to_xml
        (transcribe_to_srt segs args.model args.split_gap args.split_length)
        (resolveOutput inp args.output))

/-- The frame rate declared by the document a run wrote, if a run wrote one. -/
def writtenFrameRate : MainOutcome → Option ℚ
  | .ran (.wrote _ doc) => some doc.frame_rate
  | _ => none

/-- The stop time of the last raw segment consumed, starting from the
state `cur`. -/
def lastStop (cur : PreCue) : List RawSegment → ℚ
  | [] => cur.stop
  | s :: xs => lastStop (ofSeg s) xs

/-! ### Formatter–parser round trip -/

/-- Seconds values exactly representable in the `HH:MM:SS,mmm` format:
whole milliseconds below 24 hours. -/
def msAligned (q : ℚ) : Prop := ∃ a : ℕ, a < 86400000 ∧ q = (a : ℚ) / 1000

/-- Text the block format can carry verbatim: no carriage return, and no
empty line among its newline-separated lines. -/
def cueTextOk (t : List Char) : Prop :=
  '\r' ∉ t ∧ ∀ l ∈ splitSep '\n' t, l ≠ []

/-- The §3 cue invariants, strengthened with exact millisecond alignment
and a formattable text shape. -/
def cueWellFormed (c : Cue) : Prop :=
  1 ≤ c.index ∧ c.start < c.stop ∧ msAligned c.start ∧ msAligned c.stop ∧ cueTextOk c.text

/-! ### Concrete example values used by witnesses and counterexamples -/

deriving instance DecidableEq for Except

def helloSeg : RawSegment := ⟨0, 1, "Hello".toList⟩

def worldSeg : RawSegment := ⟨9/5, 5/2, "world".toList⟩

def exSegs : List RawSegment := [helloSeg, worldSeg]

def exCues : List Cue := [⟨1, 0, 1, "Hello".toList⟩, ⟨2, 9/5, 5/2, "world".toList⟩]

/-- The §8 over-length scenario segment (27 characters). -/
def c1seg : RawSegment := ⟨0, 2, "twenty-six characters long!".toList⟩

/-- A cue whose stop time is half a millisecond: §3-valid, but not
representable in `HH:MM:SS,mmm`. -/
def c2cue : Cue := ⟨1, 0, 1/2000, "a".toList⟩

/-- A single 25-character word: cannot be split at a word boundary. -/
def c3seg : RawSegment := ⟨0, 2, "abcdefghijklmnopqrstuvwxy".toList⟩

def c6missingArrowDoc : List Char :=
  ("1\n00:00:00,000 --> 00:00:01,000\nHello\n\n2\n00:00:01,000 --> 00:00:02,000\nworld\n\n3\n00:00:02,000 00:00:03,000\noops\n").toList

def c6badTimestampDoc : List Char :=
  ("1\n00:00:00,000 --> 00:00:0x,000\nHello\n").toList

def c6nonPositiveDoc : List Char :=
  ("1\n00:00:01,000 --> 00:00:01,000\nHello\n").toList

def c6nonIncreasingDoc : List Char :=
  ("1\n00:00:00,000 --> 00:00:01,000\nHello\n\n1\n00:00:01,000 --> 00:00:02,000\nworld\n").toList

/-- The document the synthesizer produces from `exCues` at 30 fps. -/
def exDoc : SequenceDocument :=
  ⟨30, 75, [⟨[]⟩, ⟨[]⟩,
    ⟨[⟨"Caption 1".toList, "Hello".toList, 0, 30⟩,
      ⟨"Caption 2".toList, "world".toList, 54, 75⟩]⟩]⟩

def cfgA : CliArgs := ⟨some "a.wav".toList, some "out.xml".toList, "small".toList, 1/2, 20⟩

def cfgB : CliArgs := ⟨some "b.mov".toList, some "other".toList, "large".toList, 1/2, 20⟩

def exSrt : List Char := formatCues exCues

theorem splitSep_ne_nil {α : Type} [DecidableEq α] (sep : α) (l : List α) :
    splitSep sep l ≠ [] := by
  induction l with
  | nil => simp [splitSep]
  | cons a as ih =>
    simp only [splitSep]
    split
    · simp
    · cases h : splitSep sep as with
      | nil => simp
      | cons b bs => simp

theorem joinSep_splitSep {α : Type} [DecidableEq α] (sep : α) (l : List α) :
    joinSep sep (splitSep sep l) = l := by
  induction l with
  | nil => simp [splitSep, joinSep]
  | cons a as ih =>
    simp only [splitSep]
    split
    · subst a
      cases h : splitSep sep as with
      | nil => exact absurd h (splitSep_ne_nil sep as)
      | cons b bs =>
        rw [h] at ih
        simp [joinSep, ih]
    · cases h : splitSep sep as with
      | nil => exact absurd h (splitSep_ne_nil sep as)
      | cons b bs =>
        rw [h] at ih
        cases bs with
        | nil => simp_all [joinSep]
        | cons b2 bs2 => simp_all [joinSep]

theorem sep_not_mem_of_mem_splitSep {α : Type} [DecidableEq α] {sep : α}
    {l b : List α} (hb : b ∈ splitSep sep l) : sep ∉ b := by
  induction l generalizing b with
  | nil => simp [splitSep] at hb; simp [hb]
  | cons a as ih =>
    simp only [splitSep] at hb
    by_cases ha : a = sep
    · rw [if_pos ha] at hb
      rcases List.mem_cons.mp hb with h | h
      · simp [h]
      · exact ih h
    · rw [if_neg ha] at hb
      cases h : splitSep sep as with
      | nil => exact absurd h (splitSep_ne_nil sep as)
      | cons c cs =>
        rw [h] at hb
        rcases List.mem_cons.mp hb with h2 | h2
        · subst h2
          have : c ∈ splitSep sep as := by rw [h]; exact List.mem_cons_self c cs
          have hc := ih this
          intro hmem
          rcases List.mem_cons.mp hmem with h3 | h3
          · exact ha h3.symm
          · exact hc h3
        · exact ih (by rw [h]; exact List.mem_cons_of_mem c h2)

theorem mem_of_mem_splitSep {α : Type} [DecidableEq α] {sep : α}
    {l b : List α} (hb : b ∈ splitSep sep l) {x : α} (hx : x ∈ b) : x ∈ l := by
  induction l generalizing b with
  | nil => simp [splitSep] at hb; subst hb; simp at hx
  | cons a as ih =>
    simp only [splitSep] at hb
    by_cases ha : a = sep
    · rw [if_pos ha] at hb
      rcases List.mem_cons.mp hb with h | h
      · subst h; simp at hx
      · exact List.mem_cons_of_mem a (ih h hx)
    · rw [if_neg ha] at hb
      cases h : splitSep sep as with
      | nil => exact absurd h (splitSep_ne_nil sep as)
      | cons c cs =>
        rw [h] at hb
        rcases List.mem_cons.mp hb with h2 | h2
        · subst h2
          rcases List.mem_cons.mp hx with h3 | h3
          · simp [h3]
          · have : c ∈ splitSep sep as := by rw [h]; exact List.mem_cons_self c cs
            exact List.mem_cons_of_mem a (ih this h3)
        · exact List.mem_cons_of_mem a (ih (by rw [h]; exact List.mem_cons_of_mem c h2) hx)

theorem splitSep_of_not_mem {α : Type} [DecidableEq α] {sep : α} {l : List α}
    (h : sep ∉ l) : splitSep sep l = [l] := by
  induction l with
  | nil => simp [splitSep]
  | cons a as ih =>
    simp only [splitSep]
    rw [if_neg (by intro he; exact h (he ▸ List.mem_cons_self a as))]
    rw [ih (fun hm => h (List.mem_cons_of_mem a hm))]

theorem splitSep_append {α : Type} [DecidableEq α] (sep : α) (xs ys : List α) :
    splitSep sep (xs ++ sep :: ys) = splitSep sep xs ++ splitSep sep ys := by
  induction xs with
  | nil =>
    simp [splitSep]
  | cons a as ih =>
    simp only [List.cons_append, splitSep]
    split
    · simp [ih]
    · simp only [List.append_eq]
      rw [ih]
      cases h : splitSep sep as with
      | nil => exact absurd h (splitSep_ne_nil sep as)
      | cons b bs => simp

theorem splitSep_joinSep {α : Type} [DecidableEq α] {sep : α}
    {bs : List (List α)} (hs : ∀ b ∈ bs, sep ∉ b) (hne : bs ≠ []) :
    splitSep sep (joinSep sep bs) = bs := by
  induction bs with
  | nil => exact absurd rfl hne
  | cons b bs2 ih =>
    cases bs2 with
    | nil =>
      simp only [joinSep]
      exact splitSep_of_not_mem (hs b (List.mem_cons_self b []))
    | cons b2 bs3 =>
      simp only [joinSep]
      rw [splitSep_append]
      rw [splitSep_of_not_mem (hs b (List.mem_cons_self b _))]
      rw [ih (fun x hx => hs x (List.mem_cons_of_mem b hx)) (by simp)]
      simp [joinSep]

/-- The concatenation of the chunks is the original with the separators
filtered out. -/
theorem join_splitSep_eq_filter {α : Type} [DecidableEq α] (sep : α) (l : List α) :
    (splitSep sep l).flatten = l.filter (fun a => !(a == sep)) := by
  induction l with
  | nil => simp [splitSep]
  | cons a as ih =>
    simp only [splitSep]
    by_cases ha : a = sep
    · rw [if_pos ha]
      simp only [List.flatten_cons, List.nil_append, ih]
      rw [List.filter_cons_of_neg (by simp [ha])]
    · rw [if_neg ha]
      cases h : splitSep sep as with
      | nil => exact absurd h (splitSep_ne_nil sep as)
      | cons b bs =>
        rw [h] at ih
        simp only [List.flatten_cons] at ih ⊢
        rw [List.filter_cons_of_pos (by simp [ha])]
        simp [← ih]

theorem digitVal_digitChar : ∀ d : ℕ, d < 10 → digitVal (digitChar d) = d := by decide

theorem isDigit_digitChar : ∀ d : ℕ, d < 10 → (digitChar d).isDigit = true := by decide

theorem natToCharsGo_all_digits :
    ∀ fuel n : ℕ, ∀ c ∈ natToCharsGo fuel n, c.isDigit = true := by
  intro fuel
  induction fuel with
  | zero => intro n c hc; simp [natToCharsGo] at hc
  | succ fuel ih =>
    intro n c hc
    simp only [natToCharsGo] at hc
    split at hc
    · simp at hc
    · rcases List.mem_append.mp hc with h | h
      · exact ih (n / 10) c h
      · simp only [List.mem_singleton] at h
        subst h
        exact isDigit_digitChar _ (Nat.mod_lt _ (by norm_num))

theorem natToChars_all_digits {n : ℕ} : ∀ c ∈ natToChars n, c.isDigit = true :=
  natToCharsGo_all_digits n n

theorem natToChars_ne_nil {n : ℕ} (h : 1 ≤ n) : natToChars n ≠ [] := by
  rw [natToChars]
  cases n with
  | zero => omega
  | succ m =>
    simp only [natToCharsGo]
    rw [if_neg (by omega)]
    simp

theorem foldl_natToCharsGo (fuel : ℕ) :
    ∀ n a : ℕ, n ≤ fuel →
      ((natToCharsGo fuel n).foldl (fun a c => a * 10 + digitVal c) a)
        = a * 10 ^ (natToCharsGo fuel n).length + n := by
  induction fuel with
  | zero =>
    intro n a hn
    simp only [natToCharsGo, List.foldl_nil, List.length_nil]
    omega
  | succ fuel ih =>
    intro n a hn
    simp only [natToCharsGo]
    split
    · next h0 => simp [h0]
    · next h0 =>
      rw [List.foldl_append, List.foldl_cons, List.foldl_nil]
      rw [ih (n / 10) a (by omega)]
      rw [digitVal_digitChar _ (Nat.mod_lt _ (by norm_num))]
      rw [List.length_append, List.length_singleton]
      have h10 : n / 10 * 10 + n % 10 = n := by omega
      calc (a * 10 ^ (natToCharsGo fuel (n / 10)).length + n / 10) * 10 + n % 10
          = a * (10 ^ (natToCharsGo fuel (n / 10)).length * 10)
            + (n / 10 * 10 + n % 10) := by ring
        _ = a * 10 ^ ((natToCharsGo fuel (n / 10)).length + 1) + n := by
            rw [h10, pow_succ]

theorem readNat_natToChars {n : ℕ} (h : 1 ≤ n) : readNat (natToChars n) = some n := by
  rw [readNat, if_pos]
  · rw [natToChars, foldl_natToCharsGo n n 0 le_rfl]
    simp
  · constructor
    · exact natToChars_ne_nil h
    · rw [List.all_eq_true]
      exact natToChars_all_digits

theorem padDigits_two (n : ℕ) :
    padDigits 2 n = [digitChar (n / 10 % 10), digitChar (n % 10)] := by
  simp [padDigits]

theorem padDigits_three (n : ℕ) :
    padDigits 3 n = [digitChar (n / 10 / 10 % 10), digitChar (n / 10 % 10), digitChar (n % 10)] := by
  simp [padDigits]

theorem length_timestampOfMs (ms : ℕ) : (timestampOfMs ms).length = 12 := by
  simp [timestampOfMs, padDigits]

theorem timestampOfMs_eq_explicit (ms : ℕ) :
    timestampOfMs ms =
      [digitChar (ms / 3600000 % 24 / 10 % 10), digitChar (ms / 3600000 % 24 % 10), ':',
       digitChar (ms / 60000 % 60 / 10 % 10), digitChar (ms / 60000 % 60 % 10), ':',
       digitChar (ms / 1000 % 60 / 10 % 10), digitChar (ms / 1000 % 60 % 10), ',',
       digitChar (ms % 1000 / 10 / 10 % 10), digitChar (ms % 1000 / 10 % 10),
       digitChar (ms % 1000 % 10)] := by
  simp [timestampOfMs, padDigits]

theorem mem_timestampOfMs_isDigit_or_sep {ms : ℕ} {c : Char}
    (hc : c ∈ timestampOfMs ms) : c.isDigit = true ∨ c = ':' ∨ c = ',' := by
  rw [timestampOfMs_eq_explicit] at hc
  simp only [List.mem_cons, List.not_mem_nil, or_false] at hc
  rcases hc with h | h | h | h | h | h | h | h | h | h | h | h <;>
    first
      | (left; rw [h]; exact isDigit_digitChar _ (Nat.mod_lt _ (by norm_num)))
      | (right; simp [h])

theorem readTimestamp_timestampOfMs {ms : ℕ} (h : ms < 86400000) :
    readTimestamp (timestampOfMs ms) = some ((ms : ℚ) / 1000) := by
  have hlt : ∀ k : ℕ, k % 10 < 10 := fun k => Nat.mod_lt _ (by norm_num)
  simp only [timestampOfMs, padDigits_two, padDigits_three, List.cons_append,
    List.nil_append]
  rw [readTimestamp]
  rw [if_pos]
  · congr 1
    have e1 := digitVal_digitChar _ (hlt (ms / 3600000 % 24 / 10))
    have e2 := digitVal_digitChar _ (hlt (ms / 3600000 % 24))
    have e3 := digitVal_digitChar _ (hlt (ms / 60000 % 60 / 10))
    have e4 := digitVal_digitChar _ (hlt (ms / 60000 % 60))
    have e5 := digitVal_digitChar _ (hlt (ms / 1000 % 60 / 10))
    have e6 := digitVal_digitChar _ (hlt (ms / 1000 % 60))
    have e7 := digitVal_digitChar _ (hlt (ms % 1000 / 10 / 10))
    have e8 := digitVal_digitChar _ (hlt (ms % 1000 / 10))
    have e9 := digitVal_digitChar _ (hlt (ms % 1000))
    rw [e1, e2, e3, e4, e5, e6, e7, e8, e9]
    congr 1
    norm_cast
    omega
  · refine ⟨?_, ?_, ?_, ?_, ?_, ?_, ?_, ?_, ?_, rfl, rfl, rfl⟩ <;>
      exact isDigit_digitChar _ (hlt _)

theorem to_timestamp_msAligned {a : ℕ} :
    to_timestamp ((a : ℚ) / 1000) = timestampOfMs a := by
  rw [to_timestamp]
  have : ((a : ℚ) / 1000) * 1000 = (a : ℚ) := by
    rw [div_mul_cancel₀]
    norm_num
  rw [this, round_natCast, Int.toNat_natCast]

theorem readTimestamp_to_timestamp {a : ℕ} (h : a < 86400000) :
    readTimestamp (to_timestamp ((a : ℚ) / 1000)) = some ((a : ℚ) / 1000) := by
  rw [to_timestamp_msAligned, readTimestamp_timestampOfMs h]

/-! ### Segmenter lemmas: exact preservation of the word sequence -/

theorem filter_flatten {α : Type} (p : α → Bool) (L : List (List α)) :
    (L.flatten).filter p = (L.map (List.filter p)).flatten := by
  induction L with
  | nil => rfl
  | cons a L ih => simp [List.filter_append, ih]

theorem apportionGo_texts (start dur total : ℚ) (acc : ℚ) (fs : List (List Char)) :
    (apportionGo start dur total acc fs).map PreCue.text = fs := by
  induction fs generalizing acc with
  | nil => rfl
  | cons f fs ih => simp [apportionGo, ih]

theorem packGo_flatten (L : ℕ) (cur : List (List Char)) (n : ℕ)
    (rest : List (List Char)) :
    (packGo L cur n rest).flatten = cur.reverse ++ rest := by
  induction rest generalizing cur n with
  | nil => simp [packGo]
  | cons w rest ih =>
    simp only [packGo]
    split
    · rw [ih]; simp
    · simp [ih]

theorem packWords_flatten (L : ℕ) (ws : List (List Char)) :
    (packWords L ws).flatten = ws := by
  cases ws with
  | nil => rfl
  | cons w rest => simp [packWords, packGo_flatten]

theorem packGo_ne_nil (L : ℕ) (cur : List (List Char)) (n : ℕ)
    (rest : List (List Char)) (hcur : cur ≠ []) :
    ∀ g ∈ packGo L cur n rest, g ≠ [] := by
  induction rest generalizing cur n with
  | nil =>
    intro g hg
    simp only [packGo, List.mem_singleton] at hg
    subst hg
    simpa using hcur
  | cons w rest ih =>
    intro g hg
    simp only [packGo] at hg
    split at hg
    · exact ih _ _ (by simp) g hg
    · rcases List.mem_cons.mp hg with h | h
      · subst h; simpa using hcur
      · exact ih _ _ (by simp) g h

theorem packWords_ne_nil (L : ℕ) (ws : List (List Char)) :
    ∀ g ∈ packWords L ws, g ≠ [] := by
  cases ws with
  | nil => intro g hg; simp [packWords] at hg
  | cons w rest => exact packGo_ne_nil L [w] w.length rest (by simp)

theorem packWords_splitSep_joinSep (L : ℕ) (t : List Char) :
    ∀ g ∈ packWords L (splitSep ' ' t), splitSep ' ' (joinSep ' ' g) = g := by
  intro g hg
  apply splitSep_joinSep
  · intro w hw
    have hmem : w ∈ (packWords L (splitSep ' ' t)).flatten :=
      List.mem_flatten.mpr ⟨g, hg, hw⟩
    rw [packWords_flatten] at hmem
    exact sep_not_mem_of_mem_splitSep hmem
  · exact packWords_ne_nil L _ g hg

theorem splitLong_words (L : ℕ) (pc : PreCue) :
    (((splitLong L pc).map PreCue.text).map (splitSep ' ')).flatten
      = splitSep ' ' pc.text := by
  rw [splitLong]
  split
  · simp
  · rw [apportionGo_texts, fragsOf, List.map_map]
    have hmap : ∀ g ∈ packWords L (splitSep ' ' pc.text),
        (splitSep ' ' ∘ joinSep ' ') g = id g := by
      intro g hg
      simpa using packWords_splitSep_joinSep L pc.text g hg
    rw [List.map_congr_left hmap, List.map_id]
    exact packWords_flatten L _

theorem accumGo_words (g : ℚ) (L : ℕ) (cur : PreCue) (segs : List RawSegment) :
    (((accumGo g L cur segs).map PreCue.text).map (splitSep ' ')).flatten
      = splitSep ' ' cur.text ++ ((segs.map RawSegment.text).map (splitSep ' ')).flatten := by
  induction segs generalizing cur with
  | nil => simp [accumGo]
  | cons s rest ih =>
    simp only [accumGo]
    split
    · simp only [List.map_cons, List.flatten_cons]
      rw [ih]
      simp [ofSeg]
    · rw [ih]
      simp [mergeCue, splitSep_append]

theorem indexCues_texts (i : ℕ) (ps : List PreCue) :
    (indexCues i ps).map Cue.text = ps.map PreCue.text := by
  induction ps generalizing i with
  | nil => rfl
  | cons p ps ih => simp [indexCues, ih]

theorem preCues_words (g : ℚ) (L : ℕ) (segs : List RawSegment) :
    (((preCues g L segs).map PreCue.text).map (splitSep ' ')).flatten
      = ((segs.map RawSegment.text).map (splitSep ' ')).flatten := by
  cases segs with
  | nil => rfl
  | cons s rest =>
    rw [preCues, accum]
    rw [List.map_map]
    rw [List.map_flatten]
    rw [List.flatten_flatten]
    rw [List.map_map, List.map_map]
    have hinner : ∀ pc ∈ accumGo g L (ofSeg s) rest,
        ((List.flatten ∘ List.map (splitSep ' ' ∘ PreCue.text)) ∘ splitLong L) pc
          = (splitSep ' ' ∘ PreCue.text) pc := by
      intro pc _
      have := splitLong_words L pc
      rw [List.map_map] at this
      simpa using this
    rw [List.map_congr_left hinner]
    have := accumGo_words g L (ofSeg s) rest
    rw [List.map_map] at this
    rw [this]
    simp [ofSeg]

/-! ### Segmenter lemmas: length bounds and gap splitting -/

theorem joinSep_cons_of_ne_nil {α : Type} (sep : α) (b : List α)
    {bs : List (List α)} (h : bs ≠ []) :
    joinSep sep (b :: bs) = b ++ sep :: joinSep sep bs := by
  cases bs with
  | nil => exact absurd rfl h
  | cons b2 bs2 => rfl

theorem joinSep_append_singleton {α : Type} (sep : α) (w : List α) :
    ∀ (a : List (List α)), a ≠ [] →
      joinSep sep (a ++ [w]) = joinSep sep a ++ sep :: w := by
  intro a
  induction a with
  | nil => intro h; exact absurd rfl h
  | cons x xs ih =>
    intro _
    cases xs with
    | nil => rfl
    | cons y ys =>
      rw [List.cons_append]
      rw [joinSep_cons_of_ne_nil sep x (by simp)]
      rw [joinSep_cons_of_ne_nil sep x (by simp)]
      rw [ih (by simp)]
      simp

theorem packGo_joined_le (L : ℕ) (rest : List (List Char)) :
    ∀ (cur : List (List Char)) (n : ℕ), cur ≠ [] →
      n = (joinSep ' ' cur.reverse).length → n ≤ L →
      (∀ w ∈ rest, w.length ≤ L) →
      ∀ g ∈ packGo L cur n rest, (joinSep ' ' g).length ≤ L := by
  induction rest with
  | nil =>
    intro cur n _ hn hnL _ g hg
    simp only [packGo, List.mem_singleton] at hg
    subst hg
    omega
  | cons w rest ih =>
    intro cur n hcur hn hnL hrest g hg
    simp only [packGo] at hg
    split at hg
    · refine ih (w :: cur) (n + 1 + w.length) (by simp) ?_ (by omega)
        (fun x hx => hrest x (List.mem_cons_of_mem w hx)) g hg
      rw [List.reverse_cons, joinSep_append_singleton ' ' w cur.reverse (by simpa using hcur)]
      simp only [List.length_append, List.length_cons, List.length_nil, hn]
      omega
    · rcases List.mem_cons.mp hg with h | h
      · subst h; omega
      · exact ih [w] w.length (by simp) (by simp [joinSep])
          (hrest w (List.mem_cons_self w rest))
          (fun x hx => hrest x (List.mem_cons_of_mem w hx)) g h

theorem fragsOf_len_le (L : ℕ) (t : List Char)
    (hw : ∀ w ∈ splitSep ' ' t, w.length ≤ L) :
    ∀ f ∈ fragsOf L t, f.length ≤ L := by
  intro f hf
  rw [fragsOf] at hf
  cases hsplit : splitSep ' ' t with
  | nil => exact absurd hsplit (splitSep_ne_nil ' ' t)
  | cons w ws =>
    rw [hsplit] at hf
    simp only [packWords, List.mem_map] at hf
    obtain ⟨g, hg, rfl⟩ := hf
    refine packGo_joined_le L ws [w] w.length (by simp) (by simp [joinSep]) ?_ ?_ g hg
    · exact hw w (by rw [hsplit]; exact List.mem_cons_self w ws)
    · intro x hx
      exact hw x (by rw [hsplit]; exact List.mem_cons_of_mem w hx)

theorem accumGo_word_bound (g : ℚ) (L : ℕ) (segs : List RawSegment) :
    ∀ cur : PreCue, (∀ w ∈ splitSep ' ' cur.text, w.length ≤ L) →
      (∀ s ∈ segs, ∀ w ∈ splitSep ' ' s.text, w.length ≤ L) →
      ∀ pc ∈ accumGo g L cur segs, ∀ w ∈ splitSep ' ' pc.text, w.length ≤ L := by
  induction segs with
  | nil =>
    intro cur hcur _ pc hpc
    simp only [accumGo, List.mem_singleton] at hpc
    subst hpc
    exact hcur
  | cons s rest ih =>
    intro cur hcur hsegs pc hpc
    simp only [accumGo] at hpc
    split at hpc
    · rcases List.mem_cons.mp hpc with h | h
      · subst h; exact hcur
      · exact ih (ofSeg s) (hsegs s (List.mem_cons_self s rest))
          (fun x hx => hsegs x (List.mem_cons_of_mem s hx)) pc h
    · refine ih (mergeCue cur s) ?_
        (fun x hx => hsegs x (List.mem_cons_of_mem s hx)) pc hpc
      intro w hw
      simp only [mergeCue] at hw
      rw [splitSep_append] at hw
      rcases List.mem_append.mp hw with h | h
      · exact hcur w h
      · exact hsegs s (List.mem_cons_self s rest) w h

theorem splitLong_len_le (L : ℕ) (pc : PreCue)
    (hw : ∀ w ∈ splitSep ' ' pc.text, w.length ≤ L) :
    ∀ q ∈ splitLong L pc, q.text.length ≤ L := by
  intro q hq
  rw [splitLong] at hq
  split at hq
  · simp only [List.mem_singleton] at hq
    subst hq
    omega
  · have : q.text ∈ (apportionGo pc.start (pc.stop - pc.start)
        (((fragsOf L pc.text).map shareOf).sum : ℕ) 0 (fragsOf L pc.text)).map PreCue.text :=
      List.mem_map_of_mem PreCue.text hq
    rw [apportionGo_texts] at this
    exact fragsOf_len_le L pc.text hw q.text this

theorem segmentCues_len_le (g : ℚ) (L : ℕ) (segs : List RawSegment)
    (hw : ∀ s ∈ segs, ∀ w ∈ splitSep ' ' s.text, w.length ≤ L) :
    ∀ c ∈ segmentCues g L segs, c.text.length ≤ L := by
  intro c hc
  have htext : c.text ∈ (preCues g L segs).map PreCue.text := by
    rw [← indexCues_texts 1]
    exact List.mem_map_of_mem Cue.text hc
  simp only [List.mem_map] at htext
  obtain ⟨pc, hpc, htext⟩ := htext
  rw [preCues] at hpc
  rcases List.mem_flatten.mp hpc with ⟨lst, hlst, hpclst⟩
  simp only [List.mem_map] at hlst
  obtain ⟨pc0, hpc0, rfl⟩ := hlst
  have hwords : ∀ w ∈ splitSep ' ' pc0.text, w.length ≤ L := by
    cases segs with
    | nil => simp [accum] at hpc0
    | cons s rest =>
      rw [accum] at hpc0
      exact accumGo_word_bound g L rest (ofSeg s)
        (hw s (List.mem_cons_self s rest))
        (fun x hx => hw x (List.mem_cons_of_mem s hx)) pc0 hpc0
  rw [← htext]
  exact splitLong_len_le L pc0 hwords pc hpclst

theorem lastStop_congr (c d : PreCue) (h : c.stop = d.stop) :
    ∀ xs : List RawSegment, lastStop c xs = lastStop d xs := by
  intro xs
  cases xs with
  | nil => simpa [lastStop] using h
  | cons s xs => rfl

theorem lastStop_append_singleton (cur : PreCue) (a : RawSegment) :
    ∀ xs0 : List RawSegment, lastStop cur (xs0 ++ [a]) = a.stop := by
  intro xs0
  induction xs0 generalizing cur with
  | nil => rfl
  | cons s xs0 ih => exact ih (ofSeg s)

theorem accumGo_append_of_gap (g : ℚ) (L : ℕ) (b : RawSegment) (ys : List RawSegment) :
    ∀ (xs : List RawSegment) (cur : PreCue), g < b.start - lastStop cur xs →
      accumGo g L cur (xs ++ b :: ys) = accumGo g L cur xs ++ accumGo g L (ofSeg b) ys := by
  intro xs
  induction xs with
  | nil =>
    intro cur hgap
    simp only [List.nil_append, accumGo]
    rw [if_pos (Or.inl (by simpa [lastStop] using hgap))]
    simp
  | cons s xs ih =>
    intro cur hgap
    simp only [List.cons_append, accumGo]
    by_cases hC : s.start - cur.stop > g ∨ L < cur.text.length + 1 + s.text.length
    · rw [if_pos hC, if_pos hC]
      simp only [List.append_eq]
      rw [ih (ofSeg s) (by simpa [lastStop] using hgap)]
      simp
    · rw [if_neg hC, if_neg hC]
      simp only [List.append_eq]
      refine ih (mergeCue cur s) ?_
      have heq : lastStop cur (s :: xs) = lastStop (mergeCue cur s) xs :=
        lastStop_congr (ofSeg s) (mergeCue cur s) rfl xs
      rw [heq] at hgap
      exact hgap

theorem preCues_append_of_gap (g : ℚ) (L : ℕ) (xs0 : List RawSegment)
    (a b : RawSegment) (ys : List RawSegment) (hgap : g < b.start - a.stop) :
    preCues g L ((xs0 ++ [a]) ++ b :: ys)
      = preCues g L (xs0 ++ [a]) ++ preCues g L (b :: ys) := by
  have hacc : accum g L ((xs0 ++ [a]) ++ b :: ys)
      = accum g L (xs0 ++ [a]) ++ accum g L (b :: ys) := by
    cases xs0 with
    | nil =>
      simp only [List.nil_append, List.singleton_append, accum]
      exact accumGo_append_of_gap g L b ys [] (ofSeg a)
        (by simpa [lastStop, ofSeg] using hgap)
    | cons s xs0 =>
      simp only [List.cons_append, accum]
      exact accumGo_append_of_gap g L b ys (xs0 ++ [a]) (ofSeg s)
        (by rw [lastStop_append_singleton (ofSeg s) a xs0]; exact hgap)
  simp only [preCues, hacc, List.map_append, List.flatten_append]

theorem ne_of_isDigit {c x : Char} (h : c.isDigit = true) (hx : x.isDigit = false) :
    c ≠ x := by
  intro he
  rw [he, hx] at h
  exact Bool.false_ne_true h

theorem not_mem_natToChars {n : ℕ} {x : Char} (hx : x.isDigit = false) :
    x ∉ natToChars n := by
  intro hmem
  exact ne_of_isDigit (natToChars_all_digits x hmem) hx rfl

theorem not_mem_timestampOfMs {ms : ℕ} {x : Char} (hx : x.isDigit = false)
    (hc1 : x ≠ ':') (hc2 : x ≠ ',') : x ∉ timestampOfMs ms := by
  intro hmem
  rcases mem_timestampOfMs_isDigit_or_sep hmem with h | h | h
  · exact ne_of_isDigit h hx rfl
  · exact hc1 h
  · exact hc2 h

theorem stripCR_of_not_mem {l : List Char} (h : '\r' ∉ l) : stripCR l = l := by
  rw [stripCR]
  split
  · next h2 =>
      exact absurd (List.mem_of_mem_getLast? h2) h
  · rfl

/-- Every line a well-formed cue formats to is non-empty and free of
newline and carriage-return characters. -/
theorem cueBlockLines_lines_ok (c : Cue) (hwf : cueWellFormed c) :
    ∀ l ∈ cueBlockLines c, l ≠ [] ∧ '\n' ∉ l ∧ '\r' ∉ l := by
  obtain ⟨hidx, _, ⟨a, _, hsa⟩, ⟨b, _, hsb⟩, hcr, hlines⟩ := hwf
  intro l hl
  rw [cueBlockLines, hsa, hsb, to_timestamp_msAligned, to_timestamp_msAligned] at hl
  rcases List.mem_cons.mp hl with h | h
  · subst h
    refine ⟨natToChars_ne_nil hidx, not_mem_natToChars rfl, not_mem_natToChars rfl⟩
  · rcases List.mem_cons.mp h with h2 | h2
    · subst h2
      refine ⟨?_, ?_, ?_⟩
      · intro habs
        have := congrArg List.length habs
        simp [length_timestampOfMs] at this
      · intro hmem
        rcases List.mem_append.mp hmem with hm | hm
        · rcases List.mem_append.mp hm with hm2 | hm2
          · exact absurd hm2 (not_mem_timestampOfMs (by decide) (by decide) (by decide))
          · revert hm2; decide
        · exact absurd hm (not_mem_timestampOfMs (by decide) (by decide) (by decide))
      · intro hmem
        rcases List.mem_append.mp hmem with hm | hm
        · rcases List.mem_append.mp hm with hm2 | hm2
          · exact absurd hm2 (not_mem_timestampOfMs (by decide) (by decide) (by decide))
          · revert hm2; decide
        · exact absurd hm (not_mem_timestampOfMs (by decide) (by decide) (by decide))
    · refine ⟨hlines l h2, sep_not_mem_of_mem_splitSep h2, ?_⟩
      intro hmem
      exact hcr (mem_of_mem_splitSep h2 hmem)

/-- Recover the block structure from the flattened lines: one blank line
closes each block. -/
theorem extract_blocks (bs : List (List (List Char)))
    (h : ∀ b ∈ bs, b ≠ [] ∧ ∀ l ∈ b, l ≠ []) :
    (splitSep ([] : List Char) ((bs.map (fun b => b ++ [[]])).flatten)).filter
      (fun b => !b.isEmpty) = bs := by
  induction bs with
  | nil => rfl
  | cons b bs ih =>
    simp only [List.map_cons, List.flatten_cons]
    rw [List.append_assoc, List.singleton_append]
    rw [splitSep_append]
    rw [splitSep_of_not_mem (by
      intro habs
      exact (h b (List.mem_cons_self b bs)).2 [] habs rfl)]
    rw [List.filter_append]
    rw [ih (fun x hx => h x (List.mem_cons_of_mem b hx))]
    rw [List.filter_cons_of_pos (by
      simpa using (h b (List.mem_cons_self b bs)).1)]
    rfl

theorem parseBlock_cueBlockLines (pos prev : ℕ) (c : Cue)
    (hwf : cueWellFormed c) (hprev : prev < c.index) :
    parseBlock pos prev (cueBlockLines c) = .ok c := by
  obtain ⟨hidx, hlt, ⟨a, ha, hsa⟩, ⟨b, hb, hsb⟩, hcr, hlines⟩ := hwf
  rw [cueBlockLines, hsa, hsb, to_timestamp_msAligned, to_timestamp_msAligned]
  have h12 : (timestampOfMs a).length = 12 := length_timestampOfMs a
  have h17 : ((timestampOfMs a) ++ arrowSep).length = 17 := by
    rw [List.length_append, h12]
    rfl
  have hdrop12 : ((timestampOfMs a ++ arrowSep ++ timestampOfMs b).drop 12)
      = arrowSep ++ timestampOfMs b := by
    rw [List.append_assoc, ← h12, List.drop_left]
  have hdrop17 : ((timestampOfMs a ++ arrowSep ++ timestampOfMs b).drop 17)
      = timestampOfMs b := by
    rw [← h17, List.drop_left]
  have htake12 : ((timestampOfMs a ++ arrowSep ++ timestampOfMs b).take 12)
      = timestampOfMs a := by
    rw [List.append_assoc, ← h12, List.take_left]
  rw [parseBlock]
  rw [readNat_natToChars hidx]
  dsimp only
  rw [if_neg (by omega)]
  rw [if_neg (by
    rw [hdrop12]
    have : (arrowSep ++ timestampOfMs b).take 5 = arrowSep := by
      have h5 : arrowSep.length = 5 := rfl
      rw [← h5, List.take_left]
    simp [this])]
  rw [htake12, hdrop17]
  rw [readTimestamp_timestampOfMs ha, readTimestamp_timestampOfMs hb]
  dsimp only
  have hab : (a : ℚ) / 1000 < (b : ℚ) / 1000 := by
    rw [← hsa, ← hsb]
    exact hlt
  rw [if_neg (by simpa using not_le.mpr hab)]
  rw [if_neg (splitSep_ne_nil '\n' c.text)]
  rw [joinSep_splitSep]
  rw [← hsa, ← hsb]

theorem parseBlocks_format (cues : List Cue) : ∀ (pos prev : ℕ),
    (∀ c ∈ cues, cueWellFormed c) → (∀ c ∈ cues, prev < c.index) →
    List.Pairwise (fun x y => x.index < y.index) cues →
    parseBlocks pos prev (cues.map cueBlockLines) = .ok cues := by
  induction cues with
  | nil => intro pos prev _ _ _; rfl
  | cons c cs ih =>
    intro pos prev hwf hprev hpair
    simp only [List.map_cons, parseBlocks]
    rw [parseBlock_cueBlockLines pos prev c (hwf c (List.mem_cons_self c cs))
      (hprev c (List.mem_cons_self c cs))]
    dsimp only
    rw [ih (pos + 1) c.index (fun x hx => hwf x (List.mem_cons_of_mem c hx))
      (fun x hx => (List.pairwise_cons.mp hpair).1 x hx)
      (List.pairwise_cons.mp hpair).2]

theorem parseCues_formatCues (cues : List Cue)
    (hwf : ∀ c ∈ cues, cueWellFormed c)
    (hinc : List.Pairwise (fun x y => x.index < y.index) cues) :
    parseCues (formatCues cues) = .ok cues := by
  cases cues with
  | nil => rfl
  | cons c0 cs0 =>
    rw [parseCues, formatCues]
    have hlines_ok : ∀ l ∈ ((c0 :: cs0).map formatCueLines).flatten,
        '\n' ∉ l ∧ '\r' ∉ l := by
      intro l hl
      rcases List.mem_flatten.mp hl with ⟨blk, hblk, hlblk⟩
      simp only [List.mem_map] at hblk
      obtain ⟨c, hc, rfl⟩ := hblk
      rw [formatCueLines] at hlblk
      rcases List.mem_append.mp hlblk with hm | hm
      · have := cueBlockLines_lines_ok c (hwf c hc) l hm
        exact ⟨this.2.1, this.2.2⟩
      · simp only [List.mem_singleton] at hm
        subst hm
        exact ⟨by simp, by simp⟩
    rw [splitSep_joinSep (fun l hl => (hlines_ok l hl).1) (by
      simp only [List.map_cons, List.flatten_cons, formatCueLines]
      intro habs
      rw [List.append_assoc] at habs
      exact (List.append_ne_nil_of_left_ne_nil
        (by simp [cueBlockLines]) _) habs)]
    rw [List.map_congr_left (fun l hl => stripCR_of_not_mem (hlines_ok l hl).2)]
    rw [List.map_id']
    have hblocks : ((c0 :: cs0).map formatCueLines)
        = ((c0 :: cs0).map cueBlockLines).map (fun b => b ++ [[]]) := by
      rw [List.map_map]
      rfl
    rw [hblocks]
    rw [extract_blocks _ (by
      intro b hb
      simp only [List.mem_map] at hb
      obtain ⟨c, hc, rfl⟩ := hb
      refine ⟨by simp [cueBlockLines], ?_⟩
      intro l hl
      exact (cueBlockLines_lines_ok c (hwf c hc) l hl).1)]
    exact parseBlocks_format (c0 :: cs0) 1 0
      hwf (fun x hx => (hwf x hx).1) hinc

/-! ### Timeline Synthesizer lemmas -/

theorem buildClips_bounds (fr : ℚ) (cues : List Cue) :
    ∀ prevEnd : ℤ, ∀ cl ∈ buildClips fr prevEnd cues,
      prevEnd ≤ cl.start_frame ∧ cl.start_frame < cl.end_frame := by
  induction cues with
  | nil => intro p cl hcl; simp [buildClips] at hcl
  | cons c cs ih =>
    intro p cl hcl
    simp only [buildClips] at hcl
    rcases List.mem_cons.mp hcl with h | h
    · subst h
      exact ⟨le_max_right _ _, lt_of_lt_of_le (lt_add_one _) (le_max_right _ _)⟩
    · have hrec := ih _ cl h
      refine ⟨?_, hrec.2⟩
      have h1 : p ≤ max (to_frame c.start fr) p := le_max_right _ _
      have h2 : max (to_frame c.start fr) p + 1
          ≤ max (to_frame c.stop fr) (max (to_frame c.start fr) p + 1) := le_max_right _ _
      omega

theorem buildClips_pairwise (fr : ℚ) (cues : List Cue) :
    ∀ prevEnd : ℤ, List.Pairwise
      (fun x y => x.start_frame < y.start_frame ∧ x.end_frame ≤ y.start_frame)
      (buildClips fr prevEnd cues) := by
  induction cues with
  | nil => intro p; simp [buildClips]
  | cons c cs ih =>
    intro p
    simp only [buildClips]
    refine List.Pairwise.cons ?_ (ih _)
    intro y hy
    have hb := buildClips_bounds fr cs _ y hy
    have h2 : max (to_frame c.start fr) p + 1
        ≤ max (to_frame c.stop fr) (max (to_frame c.start fr) p + 1) := le_max_right _ _
    dsimp only
    constructor
    · have hb1 := hb.1
      omega
    · exact hb.1

theorem buildClips_length (fr : ℚ) (cues : List Cue) :
    ∀ prevEnd : ℤ, (buildClips fr prevEnd cues).length = cues.length := by
  induction cues with
  | nil => intro p; rfl
  | cons c cs ih => intro p; simp [buildClips, ih]

theorem synthesize_ok_elim (fr : ℚ) (cues : List Cue) (doc : SequenceDocument)
    (h : synthesize fr cues = .ok doc) :
    doc = ⟨fr, ⌈maxStop cues * fr⌉, [⟨[]⟩, ⟨[]⟩, ⟨buildClips fr 0 cues⟩]⟩ := by
  rw [synthesize] at h
  split at h
  · exact absurd h (by simp)
  · split at h
    · exact absurd h (by simp)
    · injection h with h
      exact h.symm

theorem synthesize_frame_rate (fr : ℚ) (cues : List Cue) (doc : SequenceDocument)
    (h : synthesize fr cues = .ok doc) : doc.frame_rate = fr := by
  rw [synthesize_ok_elim fr cues doc h]

/-! ### The claims -/

/-- C1, counterexample: on the §8 scenario segment (27 characters, maximum
20) the input text is not a sublist of the concatenated output texts — the
space consumed at the split boundary is gone. -/
theorem C1_counterexample_space_dropped_at_split :
    ¬ List.Sublist ((([c1seg] : List RawSegment).map RawSegment.text).flatten)
      (((segmentCues (1/2) 20 [c1seg]).map Cue.text).flatten) := by
  intro h
  have hle := h.length_le
  have h1 : ((([c1seg] : List RawSegment).map RawSegment.text).flatten).length = 27 := by
    decide
  have h2 : (((segmentCues (1/2) 20 [c1seg]).map Cue.text).flatten).length = 26 := by
    decide
  omega

/-- C1, amended: segmentation preserves every non-space character of the
input, in the same relative order, with nothing added — only separator
spaces are consumed at split boundaries or inserted at merge boundaries. -/
theorem C1_segmentation_preserves_nonspace_characters
    (g : ℚ) (L : ℕ) (segs : List RawSegment) :
    (((segmentCues g L segs).map Cue.text).flatten).filter (fun c => !(c == ' '))
      = ((segs.map RawSegment.text).flatten).filter (fun c => !(c == ' ')) := by
  have key := preCues_words g L segs
  rw [segmentCues, indexCues_texts]
  rw [filter_flatten, filter_flatten]
  have e1 : ∀ X : List (List Char),
      X.map (List.filter (fun c => !(c == ' ')))
        = (X.map (splitSep ' ')).map List.flatten := by
    intro X
    rw [List.map_map]
    apply List.map_congr_left
    intro t _
    exact (join_splitSep_eq_filter ' ' t).symm
  rw [e1, e1]
  rw [← List.flatten_flatten, ← List.flatten_flatten]
  rw [key]

/-- C2, counterexample: a cue satisfying the §3 invariants (index 1,
`start < stop`, one-character text) whose stop time is half a millisecond
does not survive the format–parse round trip: the formatter rounds it to
one millisecond. -/
theorem C2_counterexample_submillisecond :
    parseCues (formatCues [c2cue]) ≠ .ok [c2cue] := by
  decide

/-- C2, amended: for every cue sequence satisfying the §3 invariants whose
times are whole milliseconds below 24 hours and whose text is free of
carriage returns and empty lines, parsing the formatted output returns the
original sequence. -/
theorem C2_parse_format_roundtrip (cues : List Cue)
    (hwf : ∀ c ∈ cues, cueWellFormed c)
    (hinc : List.Pairwise (fun x y => x.index < y.index) cues) :
    parseCues (formatCues cues) = .ok cues :=
  parseCues_formatCues cues hwf hinc

theorem C2_witness :
    (∀ c ∈ exCues, cueWellFormed c)
      ∧ parseCues (formatCues exCues) = .ok exCues := by
  have hwf : ∀ c ∈ exCues, cueWellFormed c := by
    intro c hc
    rcases List.mem_cons.mp hc with h | h
    · subst h
      exact ⟨by norm_num, by norm_num, ⟨0, by norm_num⟩,
        ⟨1000, by norm_num⟩, by decide, by decide⟩
    · rcases List.mem_cons.mp h with h2 | h2
      · subst h2
        exact ⟨by norm_num, by norm_num, ⟨1800, by norm_num⟩,
          ⟨2500, by norm_num⟩, by decide, by decide⟩
      · simp at h2
  exact ⟨hwf, C2_parse_format_roundtrip exCues hwf (by decide)⟩

/-- C3, counterexample: a single 25-character word with maximum length 20
produces a cue whose text exceeds the maximum — the splitter never breaks
inside a word, so an over-length word is emitted whole. -/
theorem C3_counterexample_overlong_word :
    ∃ c ∈ segmentCues (1/2) 20 [c3seg], 20 < c.text.length := by
  decide

/-- C3, amended: when every whitespace-delimited word of every input
segment fits in the maximum length, every produced cue text is within the
maximum; and splitting is always at word boundaries — the concatenated
word sequence of the output equals that of the input exactly. -/
theorem C3_length_bound_and_word_alignment (g : ℚ) (L : ℕ)
    (segs : List RawSegment)
    (hw : ∀ s ∈ segs, ∀ w ∈ splitSep ' ' s.text, w.length ≤ L) :
    (∀ c ∈ segmentCues g L segs, c.text.length ≤ L)
      ∧ (((segmentCues g L segs).map Cue.text).map (splitSep ' ')).flatten
          = ((segs.map RawSegment.text).map (splitSep ' ')).flatten := by
  refine ⟨segmentCues_len_le g L segs hw, ?_⟩
  rw [segmentCues, indexCues_texts]
  exact preCues_words g L segs

theorem C3_witness :
    (∀ s ∈ exSegs, ∀ w ∈ splitSep ' ' s.text, w.length ≤ 20)
      ∧ (∀ c ∈ segmentCues (1/2) 20 exSegs, c.text.length ≤ 20) :=
  ⟨by decide, (C3_length_bound_and_word_alignment (1/2) 20 exSegs (by decide)).1⟩

/-- C4: a silence gap above the threshold between the last segment before
the boundary and the next segment splits the segmentation exactly at that
boundary — the later segment (or its sub-splits) starts a new cue; and the
§8 two-segment scenario produces exactly the two scenario cues. -/
theorem C4_gap_split (g : ℚ) (L : ℕ) (xs0 : List RawSegment)
    (a b : RawSegment) (ys : List RawSegment) (hgap : g < b.start - a.stop) :
    (preCues g L ((xs0 ++ [a]) ++ b :: ys)
        = preCues g L (xs0 ++ [a]) ++ preCues g L (b :: ys))
      ∧ segmentCues (1/2) 20 exSegs = exCues :=
  ⟨preCues_append_of_gap g L xs0 a b ys hgap, by decide⟩

theorem C4_witness :
    ((1 : ℚ)/2 < worldSeg.start - helloSeg.stop)
      ∧ preCues (1/2) 20 (([] ++ [helloSeg]) ++ [worldSeg])
          = preCues (1/2) 20 ([] ++ [helloSeg]) ++ preCues (1/2) 20 [worldSeg] := by
  refine ⟨by norm_num [helloSeg, worldSeg], ?_⟩
  exact (C4_gap_split (1/2) 20 [] helloSeg worldSeg []
    (by norm_num [helloSeg, worldSeg])).1

/-- C5: every successfully synthesized document has, in every track, clip
items strictly ordered by start frame and pairwise non-overlapping, each
with a positive frame span, and the caption track maps the cues 1:1 — no
clip is dropped. -/
theorem C5_track_items_ordered_nonoverlapping (fr : ℚ) (cues : List Cue)
    (doc : SequenceDocument) (h : synthesize fr cues = .ok doc) :
    (∀ t ∈ doc.tracks,
        List.Pairwise
          (fun x y => x.start_frame < y.start_frame ∧ x.end_frame ≤ y.start_frame)
          t.clipItems
        ∧ ∀ cl ∈ t.clipItems, cl.start_frame < cl.end_frame)
      ∧ (doc.tracks.map (fun t => t.clipItems.length)).sum = cues.length := by
  rw [synthesize_ok_elim fr cues doc h]
  constructor
  · intro t ht
    simp only [List.mem_cons, List.not_mem_nil, or_false] at ht
    rcases ht with h1 | h1 | h1 <;> subst h1
    · exact ⟨List.Pairwise.nil, by intro cl hcl; simp at hcl⟩
    · exact ⟨List.Pairwise.nil, by intro cl hcl; simp at hcl⟩
    · exact ⟨buildClips_pairwise fr cues 0,
        fun cl hcl => (buildClips_bounds fr cues 0 cl hcl).2⟩
  · simp [buildClips_length]

theorem C5_witness :
    (synthesize 30 exCues = .ok exDoc)
      ∧ ((∀ t ∈ exDoc.tracks,
          List.Pairwise
            (fun x y => x.start_frame < y.start_frame ∧ x.end_frame ≤ y.start_frame)
            t.clipItems
          ∧ ∀ cl ∈ t.clipItems, cl.start_frame < cl.end_frame)
        ∧ (exDoc.tracks.map (fun t => t.clipItems.length)).sum = exCues.length) :=
  ⟨by decide, C5_track_items_ordered_nonoverlapping 30 exCues exDoc (by decide)⟩

/-- C6: the Cue Parser reports the offending 1-based block position in a
`MalformedCueError` on each malformed-input kind the spec enumerates; in
particular a missing arrow separator on block 3 is reported at index 3.
The parser is a pure function of the input text by construction. -/
theorem C6_parser_error_reporting :
    parseCues c6missingArrowDoc = .error ⟨3, .missingArrow⟩
      ∧ parseCues c6badTimestampDoc = .error ⟨1, .badTimestamp⟩
      ∧ parseCues c6nonPositiveDoc = .error ⟨1, .nonPositiveDuration⟩
      ∧ parseCues c6nonIncreasingDoc = .error ⟨2, .nonIncreasingIndex⟩ := by
  refine ⟨by decide, by decide, by decide, by decide⟩

/-- C7: the synthesizer fails fast (with a validation error and no
document) on a non-positive frame rate or unsorted cues, and the glue
layer of `main.py` builds the document before opening the output file, so
a failed conversion leaves no file write at all. -/
theorem C7_fail_fast_no_partial_output :
    (∀ (fr : ℚ) (cues : List Cue), fr ≤ 0 ∨ sortedByStart cues = false →
        ∃ e, synthesize fr cues = .error e)
      ∧ (∀ srt out e, premiere_convert_srt_to_xml srt = .error e →
          srt_to_xml srt out = .failed e) := by
  constructor
  · intro fr cues h
    by_cases hfr : fr ≤ 0
    · exact ⟨.nonPositiveFrameRate, by rw [synthesize, if_pos hfr]⟩
    · have hsort : sortedByStart cues = false := h.resolve_left hfr
      exact ⟨.unsortedCues, by rw [synthesize, if_neg hfr, if_pos (by simp [hsort])]⟩
  · intro srt out e h
    rw [srt_to_xml, h]

theorem C7_witness :
    ((-1 : ℚ) ≤ 0 ∨ sortedByStart ([] : List Cue) = false)
      ∧ (∃ e, synthesize (-1) ([] : List Cue) = .error e)
      ∧ premiere_convert_srt_to_xml "x".toList = .error (.parseFailure ⟨1, .missingLines⟩)
      ∧ srt_to_xml "x".toList "y".toList = .failed (.parseFailure ⟨1, .missingLines⟩) :=
  ⟨Or.inl (by norm_num),
    C7_fail_fast_no_partial_output.1 (-1) [] (Or.inl (by norm_num)),
    by decide,
    C7_fail_fast_no_partial_output.2 "x".toList "y".toList _ (by decide)⟩

/-- C8, counterexample: two runs whose caller-side configurations differ
in every field (input, output, model) both write a document declaring the
frame rate 30 — `premiere_convert`'s own default — because `main.py`
passes only the SRT file to `premiere_convert.srt_to_xml` and owns no
frame-rate setting at all. -/
theorem C8_counterexample_caller_cannot_set_frame_rate :
    writtenFrameRate (main_noninteractive cfgA exSegs) = some premiereDefaultFrameRate
      ∧ writtenFrameRate (main_noninteractive cfgB exSegs) = some premiereDefaultFrameRate := by
  refine ⟨by decide, by decide⟩

/-- C8, amended: the gap threshold and maximum cue length reach the core
as the explicit `split_gap`/`split_length` parameters, but the frame rate
of every document a run writes is `premiere_convert`'s internal default,
whatever the caller's configuration. -/
theorem C8_frame_rate_is_module_default (args : CliArgs) (segs : List RawSegment)
    (path : List Char) (doc : SequenceDocument)
    (h : main_noninteractive args segs = .ran (.wrote path doc)) :
    doc.frame_rate = premiereDefaultFrameRate := by
  rw [main_noninteractive] at h
  cases hi : args.input with
  | none => rw [hi] at h; dsimp only at h; exact absurd h (by simp)
  | some inp =>
    rw [hi] at h
    dsimp only at h
    by_cases hemp : inp = []
    · rw [if_pos hemp] at h
      exact absurd h (by simp)
    · rw [if_neg hemp] at h
      have hg : srt_to_xml
          (transcribe_to_srt segs args.model args.split_gap args.split_length)
          (resolveOutput inp args.output) = .wrote path doc := by
        injection h
      rw [srt_to_xml] at hg
      cases hp : premiere_convert_srt_to_xml
          (transcribe_to_srt segs args.model args.split_gap args.split_length) with
      | error e => rw [hp] at hg; exact absurd hg (by simp)
      | ok d =>
        rw [hp] at hg
        injection hg with h1 h2
        rw [premiere_convert_srt_to_xml] at hp
        cases hq : parseCues
            (transcribe_to_srt segs args.model args.split_gap args.split_length) with
        | error e => rw [hq] at hp; exact absurd hp (by simp)
        | ok cues =>
          rw [hq] at hp
          dsimp only at hp
          cases hs : synthesize premiereDefaultFrameRate cues with
          | error e => rw [hs] at hp; exact absurd hp (by simp)
          | ok d2 =>
            rw [hs] at hp
            injection hp with hp
            rw [← h2, ← hp]
            exact synthesize_frame_rate premiereDefaultFrameRate cues d2 hs

theorem C8_witness :
    (main_noninteractive cfgA exSegs = .ran (.wrote "out.xml".toList exDoc))
      ∧ exDoc.frame_rate = premiereDefaultFrameRate :=
  ⟨by decide, C8_frame_rate_is_module_default cfgA exSegs "out.xml".toList exDoc (by decide)⟩

/-- C9: the glue layer always writes a path ending in `.xml`: the path is
returned unchanged when it already has the suffix, gets the suffix
appended otherwise, and the path a successful conversion writes is exactly
this fixed-up path. -/
theorem C9_written_path_ends_in_xml (out : List Char) :
    xmlSuffix <:+ fixXmlName out
      ∧ (xmlSuffix <:+ out → fixXmlName out = out)
      ∧ (∀ srt path doc, srt_to_xml srt out = .wrote path doc → path = fixXmlName out) := by
  refine ⟨?_, ?_, ?_⟩
  · rw [fixXmlName]
    split
    · next h => exact List.isSuffixOf_iff_suffix.mp h
    · exact List.suffix_append out xmlSuffix
  · intro h
    rw [fixXmlName, if_pos (List.isSuffixOf_iff_suffix.mpr h)]
  · intro srt path doc h
    rw [srt_to_xml] at h
    cases hp : premiere_convert_srt_to_xml srt with
    | error e => rw [hp] at h; exact absurd h (by simp)
    | ok d =>
      rw [hp] at h
      injection h with h1 h2
      exact h1.symm

theorem C9_witness :
    (srt_to_xml exSrt "movie".toList = .wrote "movie.xml".toList exDoc)
      ∧ "movie.xml".toList = fixXmlName "movie".toList :=
  ⟨by decide,
    (C9_written_path_ends_in_xml "movie".toList).2.2 exSrt "movie.xml".toList exDoc
      (by decide)⟩

/-- C10: the entry mode is chosen by the argument count alone — exactly
one element in `sys.argv` (the program name, so zero user arguments) means
interactive prompting, two or more means the argument parser; and on the
parsed path a missing `--input` always ends in the parser error, never in
interactive prompting. -/
theorem C10_mode_selection_by_argv :
    (∀ prog : List Char, mainEntryMode [prog] = .interactive)
      ∧ (∀ argv : List (List Char), 2 ≤ argv.length → mainEntryMode argv = .noninteractive)
      ∧ (∀ (args : CliArgs) (segs : List RawSegment), args.input = none →
          main_noninteractive args segs = .parserError) := by
  refine ⟨?_, ?_, ?_⟩
  · intro prog; rfl
  · intro argv h
    rw [mainEntryMode, if_neg (by omega)]
  · intro args segs h
    rw [main_noninteractive, h]

theorem C10_witness :
    (mainEntryMode ["prog".toList] = .interactive)
      ∧ (2 ≤ (["prog".toList, "--model".toList] : List (List Char)).length)
      ∧ (mainEntryMode ["prog".toList, "--model".toList] = .noninteractive)
      ∧ main_noninteractive ⟨none, none, "small".toList, 1/2, 20⟩ exSegs = .parserError :=
  ⟨C10_mode_selection_by_argv.1 "prog".toList,
    by decide,
    C10_mode_selection_by_argv.2.1 ["prog".toList, "--model".toList] (by decide),
    C10_mode_selection_by_argv.2.2 ⟨none, none, "small".toList, 1/2, 20⟩ exSegs rfl⟩
